import Mathlib

/-!
Shallow embedding of `src/dsproject/src/main.rs` (DS210 final project):
a directed multigraph is built from a whitespace-separated edge list and
three analyses are run over it (degree histogram, second-degree histogram,
bounded closeness centrality).

Modelling conventions:
* `usize` is modelled as `Nat` (the analysed inputs stay far below 2^64,
  so overflow never matters for the claims considered here).
* petgraph's `DiGraph<(), ()>` is modelled as a node count plus the list of
  directed edges in insertion order; node identities are `0, 1, …` in
  creation order, exactly as `add_node` hands them out.
* `f64` scores are modelled as exact rationals: the only arithmetic the code
  performs on scores is a single division `1.0 / total` with `total : usize`.
* Rust's `char::is_whitespace` is Unicode white space; the inputs this
  program consumes are ASCII, so the ASCII white-space characters suffice.
* I/O errors (`line?`, `File::open`) are outside the embedded fragment; the
  input is taken as the list of its lines, each a list of characters.
-/

namespace DSProject

/-- The state of `petgraph::graph::DiGraph<(), ()>` that the program
observes: `node_count` (nodes are indices `0 … node_count - 1`, in creation
order) and the directed edge list in insertion order, duplicates kept. -/
structure Graph where
  node_count : Nat
  edges : List (Nat × Nat)
deriving DecidableEq

/-- The graph invariant maintained by construction: every edge endpoint is a
valid node index. -/
def Graph.WF (g : Graph) : Prop :=
  ∀ e ∈ g.edges, e.1 < g.node_count ∧ e.2 < g.node_count

instance (g : Graph) : Decidable g.WF := by
  unfold Graph.WF; infer_instance

/-- ASCII white space, the fragment of Rust's `char::is_whitespace` relevant
to this program's inputs. -/
def isWs (c : Char) : Bool :=
  c == ' ' || c == '\t' || c == '\n' || c == '\r'

/-- `str::split_whitespace`: maximal runs of non-white-space characters. -/
def split_whitespace (l : List Char) : List (List Char) :=
  (l.foldr
    (fun c acc =>
      if isWs c then [] :: acc
      else
        match acc with
        | [] => [[c]]
        | t :: ts => (c :: t) :: ts)
    []).filter (fun t => !t.isEmpty)

/-- `str::parse::<usize>()`: an optional leading `+`, then one or more ASCII
digits (overflow ignored, see the header). `none` models the `Err` case on
which the code's `unwrap()` panics. -/
def parseUsize (s : List Char) : Option Nat :=
  let t := if s.head? = some '+' then s.tail else s
  if !t.isEmpty && t.all (fun c => c.isDigit) then
    some (t.foldl (fun a c => 10 * a + (c.toNat - 48)) 0)
  else
    none

/-- One iteration of the line loop in `construct_graph_from_file`: skip a
line starting with `#`; otherwise split on white space; on exactly two
tokens parse both (`none` = the `unwrap()` panic), grow the node store with
`add_node` until both endpoints exist, then `add_edge`; any other token
count leaves the graph unchanged. -/
def processLine (g : Graph) (line : List Char) : Option Graph :=
  if line.head? = some '#' then some g
  else
    match split_whitespace line with
    | [a, b] =>
      match parseUsize a, parseUsize b with
      | some f, some t =>
        some { node_count := max g.node_count (max f t + 1),
               edges := g.edges ++ [(f, t)] }
      | _, _ => none
    | _ => some g

/-- The line loop of `construct_graph_from_file`, threading the graph through
`processLine`; a parse panic aborts the whole run. -/
def buildGraph (g : Graph) : List (List Char) → Option Graph
  | [] => some g
  | l :: ls =>
    match processLine g l with
    | some g2 => buildGraph g2 ls
    | none => none

/-- `construct_graph_from_file`, with the file contents given as its list of
lines. -/
def construct_graph_from_file (lines : List (List Char)) : Option Graph :=
  buildGraph { node_count := 0, edges := [] } lines

/-- `graph.neighbors(u)`: one entry per outgoing edge of `u`, duplicates
kept (petgraph reports them most-recent-first; no analysis in this program
depends on the order, so insertion order is used). -/
def neighbors (g : Graph) (u : Nat) : List Nat :=
  (g.edges.filter (fun e => e.1 == u)).map (fun e => e.2)

/-- `graph.neighbors(u).count()`: the out-degree of `u`, duplicate edges
counted. -/
def degree (g : Graph) (u : Nat) : Nat :=
  (neighbors g u).length

/-- The out-degrees of all nodes in `node_references` iteration order. -/
def degreeList (g : Graph) : List Nat :=
  (List.range g.node_count).map (degree g)

/-- The degree-distribution `HashMap` built by `basic_network_analysis`,
rendered as an association list keyed by the distinct degree values: each
distinct degree maps to the number of nodes having it. -/
def degreeHistogram (g : Graph) : List (Nat × Nat) :=
  (degreeList g).dedup.map (fun d => (d, (degreeList g).count d))

/-- The data computed (and printed) by `basic_network_analysis`: node count,
edge count and the degree histogram. -/
def basic_network_analysis (g : Graph) : Nat × Nat × List (Nat × Nat) :=
  (g.node_count, g.edges.length, degreeHistogram g)

/-- The per-source loop body of `degree_distributions_analysis`: walk all
out-neighbors, then their out-neighbors, counting each second-hop node once
per source (a fresh `visit_map` per source); the count is the number of
distinct entries of the concatenated second-neighbor lists. -/
def secondDegreeCount (g : Graph) (u : Nat) : Nat :=
  (((neighbors g u).flatMap (neighbors g)).dedup).length

/-- The second-degree counts of all nodes in iteration order. -/
def secondDegreeList (g : Graph) : List Nat :=
  (List.range g.node_count).map (secondDegreeCount g)

/-- `degree_distributions_analysis`: the second-degree histogram, rendered
as an association list keyed by the distinct second-degree counts. -/
def degree_distributions_analysis (g : Graph) : List (Nat × Nat) :=
  (secondDegreeList g).dedup.map (fun c => (c, (secondDegreeList g).count c))

/-- Nodes reachable from `u` by directed walks of length at most `k`
(breadth-first expansion, deduplicated at every level). -/
def reachUpTo (g : Graph) (u : Nat) : Nat → List Nat
  | 0 => [u]
  | k + 1 =>
    ((reachUpTo g u k) ++ (reachUpTo g u k).flatMap (neighbors g)).dedup

/-- The least `k < bound` satisfying `p`, searching upward. -/
def leastWitness (p : Nat → Bool) : Nat → Option Nat
  | 0 => none
  | n + 1 =>
    match leastWitness p n with
    | some k => some k
    | none => if p n then some n else none

/-- The shortest directed hop-distance from `u` to `v` (all edge costs 1),
`none` when `v` is unreachable; the search is bounded by `node_count`, which
suffices because breadth-first expansion over `node_count` nodes stabilises
within `node_count` levels. This is the contract of the library call
`petgraph::algo::dijkstra(graph, u, None, |_| 1)` for a single target. -/
def distOpt (g : Graph) (u v : Nat) : Option Nat :=
  leastWitness (fun k => decide (v ∈ reachUpTo g u k)) g.node_count

/-- The map returned by `dijkstra(graph, u, None, |_| 1)`: every node
reachable from `u` (itself included, at distance 0) paired with its shortest
hop-distance. -/
def dijkstra (g : Graph) (u : Nat) : List (Nat × Nat) :=
  (List.range g.node_count).filterMap
    (fun v => (distOpt g u v).map (fun d => (v, d)))

/-- `paths.values().sum()`: the summed shortest distances from `u` to all
nodes reachable from it. -/
def totalDistance (g : Graph) (u : Nat) : Nat :=
  ((dijkstra g u).map (fun p => p.2)).sum

/-- The score assigned to one source: `1.0 / total_distance` when the sum is
positive, `0.0` otherwise (scores as exact rationals). -/
def closenessScore (g : Graph) (u : Nat) : ℚ :=
  if 0 < totalDistance g u then (1 : ℚ) / (totalDistance g u : ℚ) else 0

/-- `closeness_centrality_analysis`: the `BTreeMap` from enumeration index
`i` (position in `node_references` order, which visits node `i` at position
`i`) to the closeness score of node `i`, for the first
`min(node_count, 1000)` nodes. -/
def closeness_centrality_analysis (g : Graph) : List (Nat × ℚ) :=
  (List.range (min g.node_count 1000)).map (fun i => (i, closenessScore g i))

/-- A line that contributes an edge when its tokens parse: not a comment and
exactly two white-space-separated tokens. -/
def validLine (line : List Char) : Bool :=
  !(line.head? == some '#') && (split_whitespace line).length == 2

/-- A directed walk of the given length from `u` to the indicated endpoint,
built by appending edges at the end. `Walk g u v k` holds when `v` can be
reached from `u` in exactly `k` directed hops. -/
inductive Walk (g : Graph) (u : Nat) : Nat → Nat → Prop
  | refl : Walk g u u 0
  | step {v w k} : Walk g u v k → w ∈ neighbors g v → Walk g u w (k + 1)

/-- The specification-side notion of shortest unweighted hop-distance: a walk
of length `d` exists and no shorter walk does. -/
def IsShortestDist (g : Graph) (u v d : Nat) : Prop :=
  Walk g u v d ∧ ∀ j, Walk g u v j → d ≤ j

/-- The graph built from the spec's example input `0 1`, `1 2`, `2 0`. -/
def cycleGraph : Graph :=
  ⟨3, [(0, 1), (1, 2), (2, 0)]⟩

/-- The graph built from the single self-loop line `0 0`. -/
def selfLoopGraph : Graph :=
  ⟨1, [(0, 0)]⟩

/-! ## Construction lemmas -/

theorem processLine_of_invalid {line : List Char} (g : Graph)
    (h : validLine line = false) : processLine g line = some g := by
  have h2 := h
  simp only [validLine, Bool.and_eq_false_iff, Bool.not_eq_false,
    beq_iff_eq] at h2
  rcases hsw : split_whitespace line with _ | ⟨a, _ | ⟨b, _ | ⟨c, rest⟩⟩⟩ <;>
    rcases h2 with h2 | h2 <;>
      simp_all [processLine]

theorem processLine_edges_len {line : List Char} {g g2 : Graph}
    (h : processLine g line = some g2) :
    g2.edges.length = g.edges.length + (if validLine line then 1 else 0) := by
  by_cases hv : validLine line
  · have hv2 := hv
    simp only [validLine, Bool.and_eq_true, Bool.not_eq_true',
      beq_eq_false_iff_ne, ne_eq, beq_iff_eq] at hv2
    obtain ⟨hhash, hlen⟩ := hv2
    obtain ⟨a, b, hab⟩ := List.length_eq_two.mp hlen
    rw [processLine, if_neg hhash, hab] at h
    rcases hpa : parseUsize a with _ | f <;> rcases hpb : parseUsize b with _ | t <;>
      simp only [hpa, hpb] at h
    all_goals try exact Option.noConfusion h
    obtain rfl := Option.some_injective _ h
    simp [hv]
  · rw [processLine_of_invalid g (Bool.eq_false_iff.mpr hv)] at h
    obtain rfl := Option.some_injective _ h
    simp [hv]

theorem processLine_wf {line : List Char} {g g2 : Graph}
    (h : processLine g line = some g2) (hwf : g.WF) : g2.WF := by
  by_cases hv : validLine line
  · have hv2 := hv
    simp only [validLine, Bool.and_eq_true, Bool.not_eq_true',
      beq_eq_false_iff_ne, ne_eq, beq_iff_eq] at hv2
    obtain ⟨hhash, hlen⟩ := hv2
    obtain ⟨a, b, hab⟩ := List.length_eq_two.mp hlen
    rw [processLine, if_neg hhash, hab] at h
    rcases hpa : parseUsize a with _ | f <;> rcases hpb : parseUsize b with _ | t <;>
      simp only [hpa, hpb] at h
    all_goals try exact Option.noConfusion h
    obtain rfl := Option.some_injective _ h
    intro e he
    simp only [List.mem_append, List.mem_singleton] at he
    rcases he with he | rfl
    · obtain ⟨h1, h2⟩ := hwf e he
      exact ⟨by simp only []; omega, by simp only []; omega⟩
    · exact ⟨by simp only []; omega, by simp only []; omega⟩
  · rw [processLine_of_invalid g (Bool.eq_false_iff.mpr hv)] at h
    obtain rfl := Option.some_injective _ h
    exact hwf

theorem buildGraph_edges_len {lines : List (List Char)} {g0 g : Graph}
    (h : buildGraph g0 lines = some g) :
    g.edges.length = g0.edges.length + (lines.filter validLine).length := by
  induction lines generalizing g0 with
  | nil =>
    obtain rfl := Option.some_injective _ h
    simp
  | cons l ls ih =>
    rw [buildGraph] at h
    rcases hp : processLine g0 l with _ | g2 <;> rw [hp] at h
    · exact absurd h (by simp)
    · have h1 := ih h
      have h2 := processLine_edges_len hp
      by_cases hv : validLine l <;> simp [List.filter_cons, hv] at * <;> omega

theorem buildGraph_wf {lines : List (List Char)} {g0 g : Graph}
    (h : buildGraph g0 lines = some g) (hwf : g0.WF) : g.WF := by
  induction lines generalizing g0 with
  | nil =>
    obtain rfl := Option.some_injective _ h
    exact hwf
  | cons l ls ih =>
    rw [buildGraph] at h
    rcases hp : processLine g0 l with _ | g2 <;> rw [hp] at h
    · exact absurd h (by simp)
    · exact ih h (processLine_wf hp hwf)

theorem construct_wf {lines : List (List Char)} {g : Graph}
    (h : construct_graph_from_file lines = some g) : g.WF :=
  buildGraph_wf h (by intro e he; simp at he)

theorem processLine_of_bad {line : List Char} {a b : List Char} (g : Graph)
    (hhash : line.head? ≠ some '#')
    (htok : split_whitespace line = [a, b])
    (hbad : parseUsize a = none ∨ parseUsize b = none) :
    processLine g line = none := by
  rw [processLine, if_neg hhash, htok]
  rcases hpa : parseUsize a with _ | f <;> rcases hpb : parseUsize b with _ | t <;>
    simp_all

theorem buildGraph_of_bad {line : List Char}
    (hbadline : ∀ g2 : Graph, processLine g2 line = none) :
    ∀ (g0 : Graph) (pre post : List (List Char)),
      buildGraph g0 (pre ++ line :: post) = none := by
  intro g0 pre
  induction pre generalizing g0 with
  | nil =>
    intro post
    simp [buildGraph, hbadline g0]
  | cons p ps ih =>
    intro post
    rw [List.cons_append, buildGraph]
    rcases hp : processLine g0 p with _ | g2
    · rfl
    · exact ih g2 post

theorem parseUsize_hash_head {t : List Char} (h : t.head? = some '#') :
    parseUsize t = none := by
  rcases t with _ | ⟨c, r⟩
  · simp at h
  · simp only [List.head?_cons, Option.some.injEq] at h
    subst h
    rw [parseUsize]
    simp

/-! ## Claims C4, C5, C7, C9, C10 -/

/-- C4: when construction succeeds (all processed lines parse), the edge
count equals the number of non-comment lines with exactly two tokens,
repeated edges counted individually; lines with any other token count
contribute no edge. -/
theorem edge_count_counts_valid_lines {lines : List (List Char)} {g : Graph}
    (h : construct_graph_from_file lines = some g) :
    g.edges.length = (lines.filter validLine).length := by
  have := buildGraph_edges_len h
  simpa using this

theorem edge_count_counts_valid_lines_witness :
    ∃ g : Graph,
      construct_graph_from_file
        ["0 1".toList, "# c".toList, "1 2 3".toList, "0 1".toList] = some g ∧
      g.edges.length =
        ((["0 1".toList, "# c".toList, "1 2 3".toList, "0 1".toList]).filter
          validLine).length := by
  refine ⟨⟨2, [(0, 1), (0, 1)]⟩, by decide, ?_⟩
  exact @edge_count_counts_valid_lines
    ["0 1".toList, "# c".toList, "1 2 3".toList, "0 1".toList]
    ⟨2, [(0, 1), (0, 1)]⟩ (by decide)

/-- C5: every edge of a successfully constructed graph has both endpoints
below `node_count` (so `node_count ≥ 1 + max endpoint`); both endpoints are
materialized by `add_node` in the same processing step, before `add_edge`
inserts the edge, which is why the invariant holds for every processed
prefix of the input as well. -/
theorem node_count_exceeds_max_endpoint {lines : List (List Char)} {g : Graph}
    (h : construct_graph_from_file lines = some g) :
    ∀ e ∈ g.edges, e.1 + 1 ≤ g.node_count ∧ e.2 + 1 ≤ g.node_count := by
  intro e he
  have := construct_wf h e he
  omega

theorem node_count_exceeds_max_endpoint_witness :
    ∃ g : Graph,
      construct_graph_from_file ["3 10".toList] = some g ∧
      ((10, 3) ∈ g.edges ∨ (3, 10) ∈ g.edges) ∧
      ∀ e ∈ g.edges, e.1 + 1 ≤ g.node_count ∧ e.2 + 1 ≤ g.node_count := by
  refine ⟨⟨11, [(3, 10)]⟩, by decide, by decide, ?_⟩
  exact @node_count_exceeds_max_endpoint ["3 10".toList]
    ⟨11, [(3, 10)]⟩ (by decide)

/-- C7: a non-comment line with exactly two tokens of which one fails integer
parsing makes the whole construction abort (the `unwrap()` panic), modelled
as `none`; no graph is returned no matter what surrounds the line. -/
theorem malformed_tokens_abort {lines : List (List Char)}
    {pre post : List (List Char)} {line a b : List Char}
    (hsplit : lines = pre ++ line :: post)
    (hhash : line.head? ≠ some '#')
    (htok : split_whitespace line = [a, b])
    (hbad : parseUsize a = none ∨ parseUsize b = none) :
    construct_graph_from_file lines = none := by
  subst hsplit
  exact buildGraph_of_bad (fun g2 => processLine_of_bad g2 hhash htok hbad) _ pre post

theorem malformed_tokens_abort_witness :
    construct_graph_from_file ["0 1".toList, "2 x".toList, "3 4".toList] = none := by
  exact @malformed_tokens_abort
    ["0 1".toList, "2 x".toList, "3 4".toList] ["0 1".toList] ["3 4".toList]
    "2 x".toList "2".toList "x".toList (by decide) (by decide) (by decide)
    (Or.inr (by decide))

/-- C9: a line beginning with white space followed by `#` is not treated as a
comment, because the comment test looks only at the first raw character; when
such a line has exactly two tokens, the `#`-led token fails integer parsing
and construction aborts instead of skipping the line. -/
theorem leading_whitespace_hash_aborts {lines : List (List Char)}
    {pre post : List (List Char)} {line t1 t2 : List Char} {c : Char}
    (hsplit : lines = pre ++ line :: post)
    (hhead : line.head? = some c) (hws : isWs c = true)
    (htok : split_whitespace line = [t1, t2])
    (hh1 : t1.head? = some '#') :
    construct_graph_from_file lines = none := by
  have hne : line.head? ≠ some '#' := by
    rw [hhead]
    intro hcontra
    obtain rfl := Option.some_injective _ hcontra
    exact absurd hws (by decide)
  exact malformed_tokens_abort hsplit hne htok
    (Or.inl (parseUsize_hash_head hh1))

theorem leading_whitespace_hash_aborts_witness :
    construct_graph_from_file [" # 5".toList] = none := by
  exact @leading_whitespace_hash_aborts
    [" # 5".toList] [] [] " # 5".toList "#".toList "5".toList ' '
    (by decide) (by decide) (by decide) (by decide) (by decide)

theorem buildGraph_of_no_valid {lines : List (List Char)}
    (h : ∀ l ∈ lines, validLine l = false) (g0 : Graph) :
    buildGraph g0 lines = some g0 := by
  induction lines with
  | nil => rfl
  | cons l ls ih =>
    rw [buildGraph, processLine_of_invalid g0 (h l (by simp))]
    exact ih (fun x hx => h x (by simp [hx]))

/-- C10: an input with no valid two-token non-comment lines (for instance an
empty file or comments only) constructs the empty graph, on which the degree
histogram, the second-degree histogram and the centrality table are all
empty. -/
theorem empty_input_yields_empty_results {lines : List (List Char)}
    (h : ∀ l ∈ lines, validLine l = false) :
    construct_graph_from_file lines = some ⟨0, []⟩ ∧
    degreeHistogram ⟨0, []⟩ = [] ∧
    degree_distributions_analysis ⟨0, []⟩ = [] ∧
    closeness_centrality_analysis ⟨0, []⟩ = [] := by
  refine ⟨buildGraph_of_no_valid h _, by decide, by decide, rfl⟩

theorem empty_input_yields_empty_results_witness :
    construct_graph_from_file ["# a graph".toList, "".toList, "1 2 3".toList] =
      some ⟨0, []⟩ ∧
    degreeHistogram ⟨0, []⟩ = [] := by
  have := @empty_input_yields_empty_results
    ["# a graph".toList, "".toList, "1 2 3".toList] (by decide)
  exact ⟨this.1, this.2.1⟩

/-! ## Histogram lemmas -/

theorem list_toFinset_dedup {α : Type} [DecidableEq α] (l : List α) :
    l.dedup.toFinset = l.toFinset := by
  ext x
  simp [List.mem_toFinset, List.mem_dedup]

theorem hist_counts_sum {l : List Nat} :
    ((l.dedup.map (fun d => (d, l.count d))).map (fun p => p.2)).sum = l.length := by
  rw [List.map_map]
  exact List.sum_map_count_dedup_eq_length l

theorem hist_weighted_sum {l : List Nat} :
    ((l.dedup.map (fun d => (d, l.count d))).map (fun p => p.1 * p.2)).sum = l.sum := by
  rw [List.map_map]
  have h1 : ((l.dedup.map fun d => d * l.count d)).sum =
      ∑ x in l.dedup.toFinset, x * l.count x :=
    (List.sum_toFinset _ l.nodup_dedup).symm
  have h2 : (l.map id).sum = ∑ m in l.toFinset, l.count m • id m :=
    Finset.sum_list_map_count l id
  simp only [List.map_id, id, smul_eq_mul] at h2
  calc ((l.dedup.map fun d => ((fun p : Nat × Nat => p.1 * p.2) ∘
          fun d => (d, l.count d)) d)).sum
      = ((l.dedup.map fun d => d * l.count d)).sum := by
        apply congrArg
        apply List.map_congr_left
        intro d _
        rfl
    _ = ∑ x in l.dedup.toFinset, x * l.count x := h1
    _ = ∑ x in l.toFinset, x * l.count x := by rw [list_toFinset_dedup]
    _ = ∑ x in l.toFinset, l.count x * x := by
        apply Finset.sum_congr rfl
        intro x _
        exact Nat.mul_comm x (l.count x)
    _ = l.sum := h2.symm

theorem sum_countP_fst {es : List (Nat × Nat)} {n : Nat}
    (h : ∀ e ∈ es, e.1 < n) :
    ∑ u in Finset.range n, es.countP (fun e => e.1 == u) = es.length := by
  induction es with
  | nil => simp
  | cons e t ih =>
    have ht : ∀ x ∈ t, x.1 < n := fun x hx => h x (by simp [hx])
    have he : e.1 < n := h e (by simp)
    simp only [List.countP_cons, List.length_cons]
    rw [Finset.sum_add_distrib, ih ht]
    have : ∑ u in Finset.range n, (if (e.1 == u) = true then 1 else 0)
        = (if e.1 ∈ Finset.range n then 1 else 0) := by
      rw [← Finset.sum_ite_eq (Finset.range n) e.1 (fun _ => 1)]
      apply Finset.sum_congr rfl
      intro x _
      by_cases hx : e.1 = x <;> simp [hx]
    rw [this, if_pos (Finset.mem_range.mpr he)]

theorem sum_degreeList {g : Graph} (hwf : g.WF) :
    (degreeList g).sum = g.edges.length := by
  have h1 : (degreeList g).sum = ∑ u in Finset.range g.node_count, degree g u := rfl
  rw [h1]
  have h2 : ∀ u, degree g u = g.edges.countP (fun e => e.1 == u) := by
    intro u
    rw [degree, neighbors, List.length_map]
    exact (g.edges.countP_eq_length_filter _).symm
  calc ∑ u in Finset.range g.node_count, degree g u
      = ∑ u in Finset.range g.node_count, g.edges.countP (fun e => e.1 == u) :=
        Finset.sum_congr rfl (fun u _ => h2 u)
    _ = g.edges.length := sum_countP_fst (fun e he => (hwf e he).1)

/-- C3: in the degree histogram of `basic_network_analysis` the counts sum
to `node_count` and the degree-weighted counts sum to `edge_count`
(out-degrees count duplicate edges, so the handshake identity holds). -/
theorem degree_histogram_sums (g : Graph) (hwf : g.WF) :
    ((degreeHistogram g).map (fun p => p.2)).sum = g.node_count ∧
    ((degreeHistogram g).map (fun p => p.1 * p.2)).sum = g.edges.length := by
  constructor
  · rw [degreeHistogram, hist_counts_sum]
    simp [degreeList]
  · rw [degreeHistogram, hist_weighted_sum]
    exact sum_degreeList hwf

theorem degree_histogram_sums_witness :
    cycleGraph.WF ∧
    ((degreeHistogram cycleGraph).map (fun p => p.2)).sum = cycleGraph.node_count ∧
    ((degreeHistogram cycleGraph).map (fun p => p.1 * p.2)).sum =
      cycleGraph.edges.length :=
  ⟨by decide, degree_histogram_sums cycleGraph (by decide)⟩

theorem neighbors_target_lt {g : Graph} (hwf : g.WF) {x y : Nat}
    (hx : x ∈ neighbors g y) : x < g.node_count := by
  simp only [neighbors, List.mem_map, List.mem_filter] at hx
  obtain ⟨e, ⟨he, _⟩, rfl⟩ := hx
  exact (hwf e he).2

theorem nodup_bounded_length {l : List Nat} {n : Nat} (hnd : l.Nodup)
    (hlt : ∀ x ∈ l, x < n) : l.length ≤ n := by
  have h1 : l.toFinset.card = l.length := List.toFinset_card_of_nodup hnd
  have h2 : l.toFinset ⊆ Finset.range n := by
    intro x hx
    exact Finset.mem_range.mpr (hlt x (List.mem_toFinset.mp hx))
  have := Finset.card_le_card h2
  rw [h1, Finset.card_range] at this
  exact this

theorem secondDegreeCount_le {g : Graph} (hwf : g.WF) (u : Nat) :
    secondDegreeCount g u ≤ g.node_count := by
  rw [secondDegreeCount]
  apply nodup_bounded_length (List.nodup_dedup _)
  intro x hx
  rw [List.mem_dedup, List.mem_flatMap] at hx
  obtain ⟨y, _, hxy⟩ := hx
  exact neighbors_target_lt hwf hxy

/-- C2 counterexample: on the input `0 0` the second-degree histogram is
`{1: 1}` while `node_count - 1 = 0`, so the bucket value 1 exceeds the
claimed bound `node_count - 1`. -/
theorem second_degree_bucket_bound_fails :
    construct_graph_from_file ["0 0".toList] = some selfLoopGraph ∧
    (1, 1) ∈ degree_distributions_analysis selfLoopGraph ∧
    ¬ ((1 : Nat) ≤ selfLoopGraph.node_count - 1) := by
  refine ⟨by decide, by decide, by decide⟩

/-- C2 (amended): every bucket value (key) of the second-degree histogram is
at least 0 and at most `node_count`. The original bound `node_count - 1`
fails because a node can be its own second-hop neighbor (2-cycle or
self-loop), so all `node_count` nodes can be distinct second-hop
neighbors. -/
theorem second_degree_buckets_le_node_count (g : Graph) (hwf : g.WF) :
    ∀ p ∈ degree_distributions_analysis g, 0 ≤ p.1 ∧ p.1 ≤ g.node_count := by
  intro p hp
  simp only [degree_distributions_analysis, List.mem_map] at hp
  obtain ⟨c, hc, rfl⟩ := hp
  rw [List.mem_dedup] at hc
  simp only [secondDegreeList, List.mem_map, List.mem_range] at hc
  obtain ⟨u, _, rfl⟩ := hc
  exact ⟨Nat.zero_le _, secondDegreeCount_le hwf u⟩

theorem second_degree_buckets_witness :
    selfLoopGraph.WF ∧ (1, 1) ∈ degree_distributions_analysis selfLoopGraph ∧
    (0 ≤ (1 : Nat) ∧ (1 : Nat) ≤ selfLoopGraph.node_count) :=
  ⟨by decide, by decide,
    second_degree_buckets_le_node_count selfLoopGraph (by decide) (1, 1) (by decide)⟩

/-! ## Centrality table shape and the example scenario -/

/-- C6: the centrality table has exactly `min(node_count, 1000)` entries,
keyed by the 0-based enumeration indices `0 … min(node_count, 1000) - 1` in
order, and every score lies in `[0, 1]`. -/
theorem centrality_table_shape_and_range (g : Graph) :
    (closeness_centrality_analysis g).length = min g.node_count 1000 ∧
    (closeness_centrality_analysis g).map (fun p => p.1) =
      List.range (min g.node_count 1000) ∧
    ∀ p ∈ closeness_centrality_analysis g, 0 ≤ p.2 ∧ p.2 ≤ 1 := by
  refine ⟨by simp [closeness_centrality_analysis], ?_, ?_⟩
  · rw [closeness_centrality_analysis, List.map_map]
    exact List.map_id _
  · intro p hp
    simp only [closeness_centrality_analysis, List.mem_map, List.mem_range] at hp
    obtain ⟨i, _, rfl⟩ := hp
    rw [closenessScore]
    by_cases hT : 0 < totalDistance g i
    · rw [if_pos hT]
      have h1 : (1 : ℚ) ≤ (totalDistance g i : ℚ) := by
        exact_mod_cast Nat.one_le_iff_ne_zero.mpr (Nat.pos_iff_ne_zero.mp hT)
      constructor
      · positivity
      · rw [div_le_one (by linarith)]
        exact h1
    · rw [if_neg hT]
      norm_num

theorem cca_cycle :
    closeness_centrality_analysis cycleGraph = [(0, 1/3), (1, 1/3), (2, 1/3)] := by
  have h0 : totalDistance cycleGraph 0 = 3 := by decide
  have h1 : totalDistance cycleGraph 1 = 3 := by decide
  have h2 : totalDistance cycleGraph 2 = 3 := by decide
  have hmin : min cycleGraph.node_count 1000 = 3 := by decide
  rw [closeness_centrality_analysis, hmin]
  have hr : List.range 3 = [0, 1, 2] := by decide
  rw [hr]
  simp only [List.map_cons, List.map_nil, closenessScore, h0, h1, h2]
  norm_num

theorem centrality_table_shape_witness :
    ((0 : Nat), (1 : ℚ)/3) ∈ closeness_centrality_analysis cycleGraph ∧
    (0 : ℚ) ≤ 1/3 ∧ (1 : ℚ)/3 ≤ 1 := by
  have hmem : ((0 : Nat), (1 : ℚ)/3) ∈ closeness_centrality_analysis cycleGraph := by
    rw [cca_cycle]
    simp
  exact ⟨hmem, (centrality_table_shape_and_range cycleGraph).2.2 _ hmem⟩

/-- C8: the spec's example scenario. On input `0 1`, `1 2`, `2 0` the graph
has 3 nodes and 3 edges, the degree histogram is `{1: 3}`, the second-degree
histogram is `{1: 3}`, and all three enumeration indices get the score
1/3. -/
theorem three_cycle_example :
    construct_graph_from_file ["0 1".toList, "1 2".toList, "2 0".toList] =
      some cycleGraph ∧
    cycleGraph.node_count = 3 ∧ cycleGraph.edges.length = 3 ∧
    degreeHistogram cycleGraph = [(1, 3)] ∧
    degree_distributions_analysis cycleGraph = [(1, 3)] ∧
    closeness_centrality_analysis cycleGraph = [(0, 1/3), (1, 1/3), (2, 1/3)] :=
  ⟨by decide, by decide, by decide, by decide, by decide, cca_cycle⟩

/-! ## Shortest-distance correctness of the bounded breadth-first sweep -/

theorem mem_reachUpTo_succ {g : Graph} {u x : Nat} {k : Nat} :
    x ∈ reachUpTo g u (k + 1) ↔
      x ∈ reachUpTo g u k ∨ ∃ y ∈ reachUpTo g u k, x ∈ neighbors g y := by
  simp [reachUpTo, List.mem_dedup, List.mem_append, List.mem_flatMap]

theorem reach_mono {g : Graph} {u x : Nat} {k : Nat}
    (h : x ∈ reachUpTo g u k) : x ∈ reachUpTo g u (k + 1) :=
  mem_reachUpTo_succ.mpr (Or.inl h)

theorem reach_mono_le {g : Graph} {u x : Nat} {j k : Nat} (hjk : j ≤ k)
    (h : x ∈ reachUpTo g u j) : x ∈ reachUpTo g u k := by
  induction k with
  | zero =>
    obtain rfl := Nat.le_zero.mp hjk
    exact h
  | succ k ih =>
    rcases Nat.lt_or_ge j (k + 1) with hj | hj
    · exact reach_mono (ih (Nat.lt_succ_iff.mp hj))
    · obtain rfl : j = k + 1 := Nat.le_antisymm hjk hj
      exact h

theorem walk_mem_reach {g : Graph} {u v k : Nat} (h : Walk g u v k) :
    v ∈ reachUpTo g u k := by
  induction h with
  | refl => simp [reachUpTo]
  | step _ hn ih => exact mem_reachUpTo_succ.mpr (Or.inr ⟨_, ih, hn⟩)

theorem reach_exists_walk {g : Graph} {u : Nat} :
    ∀ {k v : Nat}, v ∈ reachUpTo g u k → ∃ j ≤ k, Walk g u v j := by
  intro k
  induction k with
  | zero =>
    intro v h
    simp only [reachUpTo, List.mem_singleton] at h
    exact ⟨0, Nat.le_refl 0, h ▸ Walk.refl⟩
  | succ k ih =>
    intro v h
    rcases mem_reachUpTo_succ.mp h with h | ⟨y, hy, hn⟩
    · obtain ⟨j, hj, hw⟩ := ih h
      exact ⟨j, Nat.le_succ_of_le hj, hw⟩
    · obtain ⟨j, hj, hw⟩ := ih hy
      exact ⟨j + 1, Nat.succ_le_succ hj, Walk.step hw hn⟩

theorem lw_none {p : Nat → Bool} : ∀ {n : Nat}, leastWitness p n = none →
    ∀ j < n, p j = false := by
  intro n
  induction n with
  | zero => intro _ j hj; omega
  | succ n ih =>
    intro h j hj
    rw [leastWitness] at h
    rcases hlw : leastWitness p n with _ | k <;> rw [hlw] at h
    · by_cases hp : p n
      · rw [if_pos hp] at h
        exact Option.noConfusion h
      · rcases Nat.lt_or_ge j n with hjn | hjn
        · exact ih hlw j hjn
        · obtain rfl : j = n := by omega
          exact Bool.eq_false_iff.mpr hp
    · exact Option.noConfusion h

theorem lw_some {p : Nat → Bool} : ∀ {n k : Nat}, leastWitness p n = some k →
    k < n ∧ p k = true ∧ ∀ j < k, p j = false := by
  intro n
  induction n with
  | zero => intro k h; exact Option.noConfusion h
  | succ n ih =>
    intro k h
    rw [leastWitness] at h
    rcases hlw : leastWitness p n with _ | m <;> rw [hlw] at h
    · by_cases hp : p n
      · rw [if_pos hp] at h
        obtain rfl := Option.some_injective _ h
        exact ⟨Nat.lt_succ_self _, hp, lw_none hlw⟩
      · rw [if_neg hp] at h
        exact Option.noConfusion h
    · obtain rfl := Option.some_injective _ h
      obtain ⟨h1, h2, h3⟩ := ih hlw
      exact ⟨Nat.lt_succ_of_lt h1, h2, h3⟩

theorem lw_isSome {p : Nat → Bool} : ∀ {n k : Nat}, k < n → p k = true →
    ∃ m, leastWitness p n = some m := by
  intro n
  induction n with
  | zero => intro k hk _; omega
  | succ n ih =>
    intro k hk hp
    rw [leastWitness]
    rcases hlw : leastWitness p n with _ | m
    · rcases Nat.lt_or_ge k n with hkn | hkn
      · obtain ⟨m, hm⟩ := ih hkn hp
        rw [hlw] at hm
        exact Option.noConfusion hm
      · obtain rfl : k = n := by omega
        rw [if_pos hp]
        exact ⟨k, rfl⟩
    · exact ⟨m, rfl⟩

theorem distOpt_some {g : Graph} {u v d : Nat} (h : distOpt g u v = some d) :
    d < g.node_count ∧ v ∈ reachUpTo g u d ∧
      ∀ j < d, v ∉ reachUpTo g u j := by
  obtain ⟨h1, h2, h3⟩ := lw_some h
  refine ⟨h1, of_decide_eq_true h2, ?_⟩
  intro j hj hmem
  exact absurd (decide_eq_true hmem) (by rw [h3 j hj]; simp)

theorem dist_sound {g : Graph} {u v d : Nat} (h : distOpt g u v = some d) :
    IsShortestDist g u v d := by
  obtain ⟨hdn, hvd, hmin⟩ := distOpt_some h
  have hminW : ∀ j, Walk g u v j → d ≤ j := by
    intro j hw
    by_contra hlt
    exact hmin j (by omega) (walk_mem_reach hw)
  obtain ⟨j, hj, hw⟩ := reach_exists_walk hvd
  obtain rfl : j = d := Nat.le_antisymm (hminW j hw) hj |>.symm
  exact ⟨hw, hminW⟩

theorem reach_subset_lt {g : Graph} (hwf : g.WF) {u : Nat}
    (hu : u < g.node_count) :
    ∀ {k x : Nat}, x ∈ reachUpTo g u k → x < g.node_count := by
  intro k
  induction k with
  | zero =>
    intro x h
    simp only [reachUpTo, List.mem_singleton] at h
    omega
  | succ k ih =>
    intro x h
    rcases mem_reachUpTo_succ.mp h with h | ⟨y, _, hn⟩
    · exact ih h
    · exact neighbors_target_lt hwf hn

theorem reach_nodup {g : Graph} {u : Nat} : ∀ k, (reachUpTo g u k).Nodup := by
  intro k
  cases k with
  | zero => simp [reachUpTo]
  | succ k => exact List.nodup_dedup _

theorem stab_step {g : Graph} {u k : Nat}
    (h : ∀ x, x ∈ reachUpTo g u (k + 1) → x ∈ reachUpTo g u k) :
    ∀ x, x ∈ reachUpTo g u (k + 2) → x ∈ reachUpTo g u (k + 1) := by
  intro x hx
  rcases mem_reachUpTo_succ.mp hx with hx | ⟨y, hy, hn⟩
  · exact hx
  · exact mem_reachUpTo_succ.mpr (Or.inr ⟨y, h y hy, hn⟩)

theorem stab_forever {g : Graph} {u k : Nat}
    (h : ∀ x, x ∈ reachUpTo g u (k + 1) → x ∈ reachUpTo g u k) :
    ∀ j, k ≤ j → ∀ x, x ∈ reachUpTo g u j → x ∈ reachUpTo g u k := by
  have aux1 : ∀ m x, x ∈ reachUpTo g u (k + m + 1) → x ∈ reachUpTo g u (k + m) := by
    intro m
    induction m with
    | zero => exact h
    | succ m ih => exact stab_step ih
  have aux2 : ∀ m x, x ∈ reachUpTo g u (k + m) → x ∈ reachUpTo g u k := by
    intro m
    induction m with
    | zero => intro x hx; exact hx
    | succ m ih => intro x hx; exact ih x (aux1 m x hx)
  intro j hj x hx
  have heq : k + (j - k) = j := by omega
  exact aux2 (j - k) x (by rw [heq]; exact hx)

theorem reach_growth {g : Graph} {u k : Nat}
    (h : ¬ ∀ x, x ∈ reachUpTo g u (k + 1) → x ∈ reachUpTo g u k) :
    (reachUpTo g u k).length < (reachUpTo g u (k + 1)).length := by
  push_neg at h
  obtain ⟨x, hx1, hx2⟩ := h
  have hsub : (reachUpTo g u k).toFinset ⊆ (reachUpTo g u (k + 1)).toFinset := by
    intro y hy
    exact List.mem_toFinset.mpr (reach_mono (List.mem_toFinset.mp hy))
  have hss : (reachUpTo g u k).toFinset ⊂ (reachUpTo g u (k + 1)).toFinset :=
    (Finset.ssubset_iff_of_subset hsub).mpr
      ⟨x, List.mem_toFinset.mpr hx1, fun hc => hx2 (List.mem_toFinset.mp hc)⟩
  have hcard := Finset.card_lt_card hss
  rwa [List.toFinset_card_of_nodup (reach_nodup _),
    List.toFinset_card_of_nodup (reach_nodup _)] at hcard

theorem no_stab_growth {g : Graph} {u : Nat} :
    ∀ k, (∀ m, m < k → ¬ (∀ x, x ∈ reachUpTo g u (m + 1) → x ∈ reachUpTo g u m)) →
      k + 1 ≤ (reachUpTo g u k).length := by
  intro k
  induction k with
  | zero => intro _; simp [reachUpTo]
  | succ k ih =>
    intro h
    have h1 := ih (fun m hm => h m (by omega))
    have h2 := reach_growth (h k (by omega))
    omega

theorem exists_stab {g : Graph} (hwf : g.WF) {u : Nat} (hu : u < g.node_count) :
    ∃ k < g.node_count, ∀ x, x ∈ reachUpTo g u (k + 1) → x ∈ reachUpTo g u k := by
  by_contra hc
  push_neg at hc
  have h1 := no_stab_growth g.node_count (fun m hm => by push_neg; exact hc m hm)
  have h2 : (reachUpTo g u g.node_count).length ≤ g.node_count :=
    nodup_bounded_length (reach_nodup _) (fun x hx => reach_subset_lt hwf hu hx)
  omega

theorem walk_target_lt {g : Graph} (hwf : g.WF) {u : Nat}
    (hu : u < g.node_count) {v j : Nat} (hw : Walk g u v j) :
    v < g.node_count := by
  cases hw with
  | refl => exact hu
  | step _ hn => exact neighbors_target_lt hwf hn

theorem dist_complete {g : Graph} (hwf : g.WF) {u : Nat}
    (hu : u < g.node_count) {v j : Nat} (hw : Walk g u v j) :
    ∃ d, distOpt g u v = some d := by
  obtain ⟨k, hk, hstab⟩ := exists_stab hwf hu
  have hvj := walk_mem_reach hw
  have hvk : v ∈ reachUpTo g u k := by
    rcases Nat.le_total j k with hjk | hjk
    · exact reach_mono_le hjk hvj
    · exact stab_forever hstab j hjk v hvj
  exact lw_isSome hk (decide_eq_true hvk)

theorem distOpt_eq_iff {g : Graph} (hwf : g.WF) {u : Nat}
    (hu : u < g.node_count) {v d : Nat} :
    distOpt g u v = some d ↔ IsShortestDist g u v d := by
  constructor
  · exact dist_sound
  · rintro ⟨hw, hmin⟩
    obtain ⟨m, hm⟩ := dist_complete hwf hu hw
    obtain ⟨hwm, hminm⟩ := dist_sound hm
    obtain rfl : m = d := Nat.le_antisymm (hminm d hw) (hmin m hwm)
    exact hm

theorem mem_dijkstra_iff {g : Graph} (hwf : g.WF) {u : Nat}
    (hu : u < g.node_count) {v d : Nat} :
    (v, d) ∈ dijkstra g u ↔ IsShortestDist g u v d := by
  rw [dijkstra]
  simp only [List.mem_filterMap, List.mem_range, Option.map_eq_some']
  constructor
  · rintro ⟨a, _, ⟨d0, hd0, heq⟩⟩
    injection heq with h1 h2
    subst h1
    subst h2
    exact dist_sound hd0
  · intro hsd
    exact ⟨v, walk_target_lt hwf hu hsd.1, d,
      (distOpt_eq_iff hwf hu).mpr hsd, rfl⟩

/-- C1: for every node among the first `min(node_count, 1000)` in iteration
order, the table stores at its enumeration index the score
`1 / (sum of shortest hop-distances to the nodes reachable from it)`, with
`0` exactly when that sum is zero; the summed map `dijkstra g i` holds
exactly the reachable nodes (distance 0 to itself included, unreachable
nodes absent) with their shortest unweighted hop-distances. -/
theorem closeness_scores_match_shortest_distance_sums (g : Graph)
    (hwf : g.WF) {i : Nat} (hi : i < min g.node_count 1000) :
    (i, closenessScore g i) ∈ closeness_centrality_analysis g ∧
    closenessScore g i =
      (if totalDistance g i = 0 then 0 else 1 / (totalDistance g i : ℚ)) ∧
    (closenessScore g i = 0 ↔ totalDistance g i = 0) ∧
    ∀ v d, ((v, d) ∈ dijkstra g i ↔ IsShortestDist g i v d) := by
  have hu : i < g.node_count := lt_of_lt_of_le hi (min_le_left _ _)
  have hscore : closenessScore g i =
      (if totalDistance g i = 0 then 0 else 1 / (totalDistance g i : ℚ)) := by
    rw [closenessScore]
    rcases Nat.eq_zero_or_pos (totalDistance g i) with h | h
    · rw [h]
      simp
    · rw [if_pos h, if_neg (by omega)]
  refine ⟨?_, hscore, ?_, ?_⟩
  · simp only [closeness_centrality_analysis, List.mem_map, List.mem_range]
    exact ⟨i, hi, rfl⟩
  · rw [hscore]
    rcases Nat.eq_zero_or_pos (totalDistance g i) with h | h
    · simp [h]
    · rw [if_neg (by omega)]
      constructor
      · intro h0
        rcases div_eq_zero_iff.mp h0 with h1 | h1
        · exact absurd h1 one_ne_zero
        · exact absurd (Nat.cast_eq_zero.mp h1) (by omega)
      · intro h0
        omega
  · intro v d
    exact mem_dijkstra_iff hwf hu

theorem closeness_scores_match_witness :
    cycleGraph.WF ∧ (0 : Nat) < min cycleGraph.node_count 1000 ∧
    ((0, closenessScore cycleGraph 0) ∈ closeness_centrality_analysis cycleGraph ∧
     closenessScore cycleGraph 0 =
       (if totalDistance cycleGraph 0 = 0 then 0
        else 1 / (totalDistance cycleGraph 0 : ℚ)) ∧
     (closenessScore cycleGraph 0 = 0 ↔ totalDistance cycleGraph 0 = 0) ∧
     ∀ v d, ((v, d) ∈ dijkstra cycleGraph 0 ↔ IsShortestDist cycleGraph 0 v d)) :=
  ⟨by decide, by decide,
    closeness_scores_match_shortest_distance_sums cycleGraph (by decide) (by decide)⟩

end DSProject
